import Mathlib

/-!
Verification development for the balance-sheet-analyst repository.

The repository ships a React/TypeScript frontend, SQL schemas, shell
configuration and extensive documentation; the FastAPI backend that the
specification describes (vector store, chunker, access-control filter,
retriever, session engine) is not part of the checked-in sources, so those
components are modelled from the specification.  The access-control
functions `get_user_accessible_verticals` and `has_access_to_company` are
embedded from the Python snippets recorded in the repository documentation,
and `formatCurrency` is embedded from `frontend/src/pages/Companies.tsx`.

Numeric values are modelled exactly: JavaScript/Python numbers become `ℚ`
(or `Nat`/`Int` where the source only ever holds integers), strings become
`String` or `List Char`.
-/

/-! ## Roles and access control (embedded from repository sources) -/

/-- User roles, as stored in the `users.role` column of the sample data and
matched on by the documented access helpers. -/
inductive Role where
  | analyst
  | ceo
  | group_ceo
  | top_management
deriving DecidableEq, Repr

/-- A user as the access helpers see it: a role plus granted company ids
(the `user_companies` join table). -/
structure User where
  role : Role
  companies : List Nat
deriving DecidableEq, Repr

/-- The ten company ids inserted by `data/sample_data.sql`; the reference
set of verticals (`all_companies` in the documented Python helper). -/
def all_companies : List Nat := [1, 2, 3, 4, 5, 6, 7, 8, 9, 10]

/-- Embedded from the repository documentation (part_004, lines 404-407):
`def get_user_accessible_verticals(user): if user.role == 'ceo': return
user.companies; return all_companies`.  Only the `ceo` role is
special-cased; every other role, including `top_management`, falls through
to the full company list. -/
def get_user_accessible_verticals (user : User) : List Nat :=
  if user.role = Role.ceo then user.companies else all_companies

/-- Embedded from the repository documentation (part_004, lines 432-435):
`def has_access_to_company(user, company_id): if user.role in ['analyst',
'group_ceo']: return True; return company_id in user.companies`. -/
def has_access_to_company (user : User) (company_id : Nat) : Bool :=
  if user.role = Role.analyst ∨ user.role = Role.group_ceo then true
  else user.companies.contains company_id

/-- The Access Control Filter exactly as the specification words it:
`analyst` and `group_ceo` resolve to all verticals; `ceo` and
`top_management` resolve to exactly the verticals tied to their granted
companies.  Kept separate from the embedded code so the two can be
compared. -/
def accessibleVerticalsSpec (user : User) : List Nat :=
  match user.role with
  | Role.analyst => all_companies
  | Role.group_ceo => all_companies
  | Role.ceo => user.companies
  | Role.top_management => user.companies

/-! ## Chunker -/

/-- Modelled from the spec: the Chunker backend module is absent from the
checked-in sources (only its configuration `CHUNK_SIZE`/`CHUNK_OVERLAP`
appears in `setup.sh`).  Sliding-window worker: while text remains, emit a
window of at most `size` characters and advance by `step` characters
(`step = size - overlap`).  The `fuel` argument makes the while loop
structurally recursive; the wrapper passes `text.length`, which always
suffices. -/
def chunksFuel (size step : Nat) : Nat → List Char → List (List Char)
  | _, [] => []
  | 0, _ :: _ => []
  | fuel + 1, text =>
    if text.length ≤ size ∨ step = 0 then [text]
    else text.take size :: chunksFuel size step fuel (text.drop step)

/-- Modelled from the spec: the Chunker splits a block's text into ordered
chunks of at most `size` characters, chunk n+1 beginning `overlap`
characters before the nominal end of chunk n. -/
def slidingChunks (size overlap : Nat) (text : List Char) : List (List Char) :=
  chunksFuel size (size - overlap) text.length text

/-- Concatenate chunks with the configured overlap removed from each chunk
after the first; this is the round-trip read-back of the testable property
in the specification. -/
def dropOverlapConcat (overlap : Nat) : List (List Char) → List Char
  | [] => []
  | c :: cs => c ++ (cs.map (List.drop overlap)).flatten

/-- Two adjacent chunks share exactly `overlap` characters: the earlier
chunk is full (`size` characters), the later one has at least `overlap`
characters, and the last `overlap` characters of the earlier chunk are the
first `overlap` characters of the later one. -/
def adjacentOverlap (size overlap : Nat) (c c' : List Char) : Prop :=
  c.length = size ∧ overlap ≤ c'.length ∧ c.drop (size - overlap) = c'.take overlap

instance (size overlap : Nat) : DecidableRel (adjacentOverlap size overlap) := by
  intro c c'
  unfold adjacentOverlap
  infer_instance

/-! ## Vector store -/

/-- Modelled from the spec: an entry of the Vector Store, carrying the
chunk id, embedding vector, vertical set and metadata. -/
structure StoredChunk where
  chunk_id : Nat
  vector : List Int
  vertical_set : List Nat
  metadata : String
deriving DecidableEq, Repr

/-- A vertical set intersects the allowed set when some vertical of the
chunk is among the allowed verticals. -/
def verticalsIntersect (vs allowed : List Nat) : Bool :=
  vs.any (fun v => allowed.contains v)

/-- Modelled from the spec: `upsert(chunk_id, vector, vertical_set,
metadata)` on the Vector Store (absent backend module); re-upserting an
existing chunk id replaces that entry in place, otherwise the entry is
appended. -/
def upsert (c : StoredChunk) : List StoredChunk → List StoredChunk
  | [] => [c]
  | e :: s => if e.chunk_id = c.chunk_id then c :: s else e :: upsert c s

/-- Look a chunk up by id. -/
def lookupChunk (i : Nat) (s : List StoredChunk) : Option StoredChunk :=
  s.find? (fun e => e.chunk_id = i)

/-- Does the store already hold an entry with this chunk id? -/
def hasChunkId (i : Nat) (s : List StoredChunk) : Bool :=
  s.any (fun e => e.chunk_id = i)

/-- Modelled from the spec: ingestion writes every chunk of a document to
the Vector Store through `upsert`. -/
def ingest (chunks : List StoredChunk) (store : List StoredChunk) : List StoredChunk :=
  chunks.foldl (fun s c => upsert c s) store

/-- Modelled from the spec: `search(query_vector, allowed_verticals,
top_k, min_similarity)` on the Vector Store (absent backend module).
Inside the store call, candidates are restricted to chunks whose vertical
set intersects the allowed verticals and whose similarity reaches the
threshold; survivors are ordered by descending similarity and at most
`top_k` chunk ids are returned.  The similarity measure is a parameter. -/
def search (sim : List Int → List Int → ℚ) (store : List StoredChunk)
    (query_vector : List Int) (allowed_verticals : List Nat)
    (top_k : Nat) (min_similarity : ℚ) : List Nat :=
  let candidates := store.filter
    (fun c => verticalsIntersect c.vertical_set allowed_verticals &&
      decide (min_similarity ≤ sim query_vector c.vector))
  let ranked := candidates.insertionSort
    (fun a b => sim query_vector b.vector ≤ sim query_vector a.vector)
  (ranked.take top_k).map (fun c => c.chunk_id)

/-! ## Response generator and chat session engine -/

/-- Modelled from the spec: one outcome of a call to the LLM collaborator
(a successful text, a transient network/timeout failure, or a semantic or
validation rejection by the provider). -/
inductive CallOutcome where
  | ok (text : String)
  | transientFailure
  | rejected (reason : String)
deriving DecidableEq, Repr

/-- Modelled from the spec: failures the Response Generator surfaces:
`GenerationTimeout` after exhausted retries and the non-retryable
`GenerationError`. -/
inductive GenFailure where
  | generationTimeout
  | generationError (reason : String)
deriving DecidableEq, Repr

/-- Map a single call outcome to its result when no further retry is
allowed: a transient failure now surfaces as `GenerationTimeout`. -/
def finalAttempt : CallOutcome → Except GenFailure String
  | CallOutcome.ok t => Except.ok t
  | CallOutcome.transientFailure => Except.error GenFailure.generationTimeout
  | CallOutcome.rejected r => Except.error (GenFailure.generationError r)

/-- Modelled from the spec: the Response Generator (absent backend module)
wraps the LLM collaborator with exactly one retry on transient failure and
no retry on a semantic rejection.  The collaborator is modelled as the
list of outcomes successive calls would produce; the result is paired with
the number of calls actually made. -/
def generateWithRetry : List CallOutcome → Except GenFailure String × Nat
  | [] => (Except.error GenFailure.generationTimeout, 0)
  | CallOutcome.ok t :: _ => (Except.ok t, 1)
  | CallOutcome.rejected r :: _ => (Except.error (GenFailure.generationError r), 1)
  | CallOutcome.transientFailure :: rest =>
    match rest with
    | [] => (Except.error GenFailure.generationTimeout, 1)
    | o :: _ => (finalAttempt o, 2)

/-- Status of a persisted turn. -/
inductive TurnStatus where
  | completed
  | failed (reason : GenFailure)
deriving DecidableEq, Repr

/-- Modelled from the spec: one user query with its paired assistant
response (absent when generation failed) and a status. -/
structure Turn where
  userMessage : String
  assistantMessage : Option String
  status : TurnStatus
deriving DecidableEq, Repr

/-- Modelled from the spec: a chat session is open or closed and carries
its ordered turn list. -/
structure ChatSession where
  isOpen : Bool
  turns : List Turn
deriving DecidableEq, Repr

/-- Session-state violations surfaced to the caller. -/
inductive SessionError where
  | sessionClosed
deriving DecidableEq, Repr

/-- Modelled from the spec: the Session Engine's handling of one message
(absent backend module; the frontend only calls the endpoint).  A closed
session rejects the message with `SessionClosed` and stays unchanged; an
open session runs the generator and appends a Turn, marked failed (with
the user's message kept and no assistant message) when generation failed. -/
def runTurn (outcomes : List CallOutcome) (s : ChatSession) (msg : String) :
    ChatSession × Option SessionError :=
  if s.isOpen then
    match (generateWithRetry outcomes).1 with
    | Except.ok t =>
      ({ s with turns := s.turns ++ [⟨msg, some t, TurnStatus.completed⟩] }, none)
    | Except.error e =>
      ({ s with turns := s.turns ++ [⟨msg, none, TurnStatus.failed e⟩] }, none)
  else (s, some SessionError.sessionClosed)

/-- The operations the core may apply to a session: submit a message or
close the session.  No operation re-opens a session. -/
inductive SessionOp where
  | submit (outcomes : List CallOutcome) (msg : String)
  | close

/-- Apply one session operation. -/
def applySessionOp (op : SessionOp) (s : ChatSession) : ChatSession :=
  match op with
  | SessionOp.submit outcomes msg => (runTurn outcomes s msg).1
  | SessionOp.close => { s with isOpen := false }

/-! ## Upload boundary -/

/-- The configured maximum upload size, from `setup.sh`:
`MAX_FILE_SIZE=52428800` (50 MB). -/
def MAX_FILE_SIZE : Nat := 52428800

/-- Decision of the upload boundary. -/
inductive UploadDecision where
  | accepted
  | payloadTooLarge
deriving DecidableEq, Repr

/-- Modelled from the spec: the upload boundary (absent backend module)
accepts a byte stream plus declared content type and rejects non-PDF
content types and streams exceeding the configured maximum size with
`PayloadTooLarge`. -/
def uploadBoundary (content_type : String) (byte_count : Nat) : UploadDecision :=
  if content_type ≠ "application/pdf" then UploadDecision.payloadTooLarge
  else if MAX_FILE_SIZE < byte_count then UploadDecision.payloadTooLarge
  else UploadDecision.accepted

/-- Embedded from `frontend/src/components/PDFUpload.tsx`
(`handleFileChange`): the frontend pre-filter keeps a selected file only
when its declared type is `application/pdf`; it performs no size check. -/
def handleFileChange (selected : Option (String × Nat)) : Option (String × Nat) :=
  match selected with
  | some (t, sz) => if t = "application/pdf" then some (t, sz) else none
  | none => none

/-! ## formatCurrency (embedded from frontend/src/pages/Companies.tsx) -/

/-- Render a rational to one decimal place, rounding half up, as
JavaScript `Number.prototype.toFixed(1)` does for the non-negative values
`formatCurrency` feeds it (JavaScript binary floating point is idealised
as exact rational arithmetic). -/
def toFixed1 (q : ℚ) : String :=
  let t : ℚ := q * 10 + 1 / 2
  let n : Int := t.num / (t.den : Int)
  toString (n / 10) ++ "." ++ toString (n % 10)

/-- Embedded from `Companies.tsx` lines 49-58: `formatCurrency` scales the
amount by 1e12/1e9/1e6 with suffix T/B/M and otherwise falls back to
`toLocaleString`; the locale formatter is a parameter, as it is
environment-supplied in the browser. -/
def formatCurrency (toLocaleString : ℚ → String) (amount : ℚ) : String :=
  if amount ≥ 1000000000000 then "$" ++ toFixed1 (amount / 1000000000000) ++ "T"
  else if amount ≥ 1000000000 then "$" ++ toFixed1 (amount / 1000000000) ++ "B"
  else if amount ≥ 1000000 then "$" ++ toFixed1 (amount / 1000000) ++ "M"
  else "$" ++ toLocaleString amount

/-- A toy similarity measure used to exercise the store on concrete
inputs: full score for an exact vector match, zero otherwise. -/
def exactMatchSim (q v : List Int) : ℚ := if q = v then 1 else 0

/-- A concrete three-chunk store: chunk 1 lives in vertical 1; chunks 2
and 3 live in vertical 2 and would also pass the similarity threshold. -/
def demoStore : List StoredChunk :=
  [⟨1, [5], [1], "a"⟩, ⟨2, [5], [2], "b"⟩, ⟨3, [5], [2], "c"⟩]

/-! ## Theorems -/

/-- C2 (code_bug evidence): for a `top_management` user granted only
company 2, the documented `get_user_accessible_verticals` returns the full
company list — vertical 1 included, although `has_access_to_company`
denies that very company — diverging from the specification's filter,
which returns exactly the granted verticals. -/
theorem top_management_receives_all_verticals :
    get_user_accessible_verticals ⟨Role.top_management, [2]⟩ = all_companies ∧
    1 ∈ get_user_accessible_verticals ⟨Role.top_management, [2]⟩ ∧
    1 ∉ (User.mk Role.top_management [2]).companies ∧
    has_access_to_company ⟨Role.top_management, [2]⟩ 1 = false ∧
    accessibleVerticalsSpec ⟨Role.top_management, [2]⟩ = [2] ∧
    get_user_accessible_verticals ⟨Role.top_management, [2]⟩ ≠
      accessibleVerticalsSpec ⟨Role.top_management, [2]⟩ := by
  refine ⟨rfl, ?_, ?_, rfl, rfl, ?_⟩ <;> decide

/-- C3 (code_bug evidence): a `top_management` user with no company
memberships receives the full company list from
`get_user_accessible_verticals` instead of the empty set the
specification requires; the `ceo` role does degrade to the empty set. -/
theorem empty_memberships_default_access :
    get_user_accessible_verticals ⟨Role.top_management, []⟩ = all_companies ∧
    get_user_accessible_verticals ⟨Role.top_management, []⟩ ≠ [] ∧
    get_user_accessible_verticals ⟨Role.ceo, []⟩ = [] ∧
    accessibleVerticalsSpec ⟨Role.top_management, []⟩ = [] := by
  refine ⟨rfl, ?_, rfl, rfl⟩
  decide

/-- C9: the upload boundary (modelled from the spec) rejects a request
exactly when the declared content type is not PDF or the stream exceeds
`MAX_FILE_SIZE = 52428800`; within the limit and with a PDF content type
it accepts. -/
theorem uploadBoundary_enforces_limits (ct : String) (n : Nat) :
    MAX_FILE_SIZE = 52428800 ∧
    (ct ≠ "application/pdf" ∨ MAX_FILE_SIZE < n →
      uploadBoundary ct n = UploadDecision.payloadTooLarge) ∧
    (ct = "application/pdf" ∧ n ≤ MAX_FILE_SIZE →
      uploadBoundary ct n = UploadDecision.accepted) := by
  refine ⟨rfl, ?_, ?_⟩
  · rintro (hct | hn)
    · simp [uploadBoundary, hct]
    · by_cases hct : ct = "application/pdf"
      · simp [uploadBoundary, hct, hn]
      · simp [uploadBoundary, hct]
  · rintro ⟨hct, hn⟩
    simp [uploadBoundary, hct, Nat.not_lt.mpr hn]

/-- Witness for C9 at concrete inputs: a text file is rejected, an
oversized PDF is rejected, a small PDF is accepted. -/
theorem uploadBoundary_enforces_limits_witness :
    (("text/plain" ≠ "application/pdf" ∨ MAX_FILE_SIZE < 10) ∧
      uploadBoundary "text/plain" 10 = UploadDecision.payloadTooLarge) ∧
    ((("application/pdf" : String) ≠ "application/pdf" ∨ MAX_FILE_SIZE < 52428801) ∧
      uploadBoundary "application/pdf" 52428801 = UploadDecision.payloadTooLarge) ∧
    ((("application/pdf" : String) = "application/pdf" ∧ 1024 ≤ MAX_FILE_SIZE) ∧
      uploadBoundary "application/pdf" 1024 = UploadDecision.accepted) :=
  ⟨⟨Or.inl (by decide), (uploadBoundary_enforces_limits "text/plain" 10).2.1 (Or.inl (by decide))⟩,
   ⟨Or.inr (by decide), (uploadBoundary_enforces_limits "application/pdf" 52428801).2.1 (Or.inr (by decide))⟩,
   ⟨⟨rfl, by decide⟩, (uploadBoundary_enforces_limits "application/pdf" 1024).2.2 ⟨rfl, by decide⟩⟩⟩

/-- C7: a closed session rejects a submitted message with `SessionClosed`,
its turn list is unchanged, and no session operation (submit or close)
ever returns a closed session to the open state. -/
theorem closed_session_rejects (outcomes : List CallOutcome) (s : ChatSession) (msg : String)
    (h : s.isOpen = false) :
    runTurn outcomes s msg = (s, some SessionError.sessionClosed) ∧
    (runTurn outcomes s msg).1.turns = s.turns ∧
    ∀ op : SessionOp, (applySessionOp op s).isOpen = false := by
  have hrun : runTurn outcomes s msg = (s, some SessionError.sessionClosed) := by
    simp [runTurn, h]
  refine ⟨hrun, by rw [hrun], ?_⟩
  intro op
  cases op with
  | submit outcomes' msg' =>
    have hrun' : runTurn outcomes' s msg' = (s, some SessionError.sessionClosed) := by
      simp [runTurn, h]
    simp [applySessionOp, hrun', h]
  | close => simp [applySessionOp]

/-- Witness for C7: a concrete closed session with one past turn rejects
a new message and keeps its turn list. -/
theorem closed_session_rejects_witness :
    (ChatSession.mk false [⟨"q", some "a", TurnStatus.completed⟩]).isOpen = false ∧
    runTurn [CallOutcome.ok "ans"] ⟨false, [⟨"q", some "a", TurnStatus.completed⟩]⟩ "hello" =
      (⟨false, [⟨"q", some "a", TurnStatus.completed⟩]⟩, some SessionError.sessionClosed) :=
  ⟨rfl, (closed_session_rejects [CallOutcome.ok "ans"]
    ⟨false, [⟨"q", some "a", TurnStatus.completed⟩]⟩ "hello" rfl).1⟩

/-- C8: the Response Generator makes no second call after a semantic
rejection, makes exactly one retry after a transient failure, fails with
`GenerationTimeout` when the retry is also transient, and in that case the
Session Engine still appends a Turn carrying the user's message, with no
assistant message and status failed. -/
theorem generator_retry_policy (t r msg : String) (rest : List CallOutcome) (s : ChatSession)
    (h : s.isOpen = true) :
    generateWithRetry (CallOutcome.rejected r :: rest) =
      (Except.error (GenFailure.generationError r), 1) ∧
    generateWithRetry (CallOutcome.transientFailure :: CallOutcome.ok t :: rest) =
      (Except.ok t, 2) ∧
    generateWithRetry (CallOutcome.transientFailure :: CallOutcome.transientFailure :: rest) =
      (Except.error GenFailure.generationTimeout, 2) ∧
    (runTurn (CallOutcome.transientFailure :: CallOutcome.transientFailure :: rest) s msg).1.turns =
      s.turns ++ [⟨msg, none, TurnStatus.failed GenFailure.generationTimeout⟩] := by
  refine ⟨rfl, rfl, rfl, ?_⟩
  simp [runTurn, h, generateWithRetry, finalAttempt]

/-- Witness for C8 on a concrete open session: a rejection consumes one
call, a transient followed by success consumes two, two transients time
out, and the failed turn with the user's message is persisted. -/
theorem generator_retry_policy_witness :
    generateWithRetry [CallOutcome.rejected "bad prompt"] =
      (Except.error (GenFailure.generationError "bad prompt"), 1) ∧
    generateWithRetry [CallOutcome.transientFailure, CallOutcome.ok "ans"] =
      (Except.ok "ans", 2) ∧
    generateWithRetry [CallOutcome.transientFailure, CallOutcome.transientFailure] =
      (Except.error GenFailure.generationTimeout, 2) ∧
    (runTurn [CallOutcome.transientFailure, CallOutcome.transientFailure]
        ⟨true, []⟩ "what is revenue?").1.turns =
      [] ++ [⟨"what is revenue?", none, TurnStatus.failed GenFailure.generationTimeout⟩] :=
  generator_retry_policy "ans" "bad prompt" "what is revenue?" [] ⟨true, []⟩ rfl

theorem upsert_length_of_hasChunkId (c : StoredChunk) (s : List StoredChunk)
    (h : hasChunkId c.chunk_id s = true) : (upsert c s).length = s.length := by
  induction s with
  | nil => simp [hasChunkId] at h
  | cons e s ih =>
    by_cases he : e.chunk_id = c.chunk_id
    · simp [upsert, he]
    · have hs : hasChunkId c.chunk_id s = true := by
        simpa [hasChunkId, he] using h
      simp [upsert, he, ih hs]

theorem hasChunkId_upsert_self (c : StoredChunk) (s : List StoredChunk) :
    hasChunkId c.chunk_id (upsert c s) = true := by
  induction s with
  | nil => simp [upsert, hasChunkId]
  | cons e s ih =>
    by_cases he : e.chunk_id = c.chunk_id
    · simp [upsert, he, hasChunkId]
    · simp only [upsert, if_neg he]
      rw [hasChunkId, List.any_cons]
      exact Bool.or_eq_true_iff.mpr (Or.inr ih)

theorem hasChunkId_upsert_mono (i : Nat) (c : StoredChunk) (s : List StoredChunk)
    (h : hasChunkId i s = true) : hasChunkId i (upsert c s) = true := by
  induction s with
  | nil => simp [hasChunkId] at h
  | cons e s ih =>
    rw [hasChunkId, List.any_cons] at h
    by_cases he : e.chunk_id = c.chunk_id
    · simp only [upsert, if_pos he]
      rw [hasChunkId, List.any_cons]
      rcases Bool.or_eq_true_iff.mp h with h1 | h2
      · have hci : c.chunk_id = i := he ▸ of_decide_eq_true h1
        exact Bool.or_eq_true_iff.mpr (Or.inl (decide_eq_true hci))
      · exact Bool.or_eq_true_iff.mpr (Or.inr h2)
    · simp only [upsert, if_neg he]
      rw [hasChunkId, List.any_cons]
      rcases Bool.or_eq_true_iff.mp h with h1 | h2
      · exact Bool.or_eq_true_iff.mpr (Or.inl h1)
      · exact Bool.or_eq_true_iff.mpr (Or.inr (ih h2))

theorem hasChunkId_ingest_mono (i : Nat) (chunks s : List StoredChunk)
    (h : hasChunkId i s = true) : hasChunkId i (ingest chunks s) = true := by
  induction chunks generalizing s with
  | nil => exact h
  | cons c cs ih => exact ih (upsert c s) (hasChunkId_upsert_mono i c s h)

theorem hasChunkId_ingest (chunks s : List StoredChunk) (c : StoredChunk)
    (hc : c ∈ chunks) : hasChunkId c.chunk_id (ingest chunks s) = true := by
  induction chunks generalizing s with
  | nil => cases hc
  | cons d ds ih =>
    rcases List.mem_cons.mp hc with rfl | hmem
    · exact hasChunkId_ingest_mono c.chunk_id ds (upsert c s) (hasChunkId_upsert_self c s)
    · exact ih (upsert d s) hmem

theorem ingest_length_of_present (chunks s : List StoredChunk)
    (h : ∀ c ∈ chunks, hasChunkId c.chunk_id s = true) :
    (ingest chunks s).length = s.length := by
  induction chunks generalizing s with
  | nil => rfl
  | cons c cs ih =>
    have hc : hasChunkId c.chunk_id s = true := h c (List.mem_cons_self c cs)
    have hrest : ∀ d ∈ cs, hasChunkId d.chunk_id (upsert c s) = true := fun d hd =>
      hasChunkId_upsert_mono d.chunk_id c s (h d (List.mem_cons_of_mem c hd))
    calc (ingest (c :: cs) s).length
        = (ingest cs (upsert c s)).length := rfl
      _ = (upsert c s).length := ih (upsert c s) hrest
      _ = s.length := upsert_length_of_hasChunkId c s hc

theorem lookupChunk_upsert (c : StoredChunk) (s : List StoredChunk) :
    lookupChunk c.chunk_id (upsert c s) = some c := by
  induction s with
  | nil => simp [upsert, lookupChunk]
  | cons e s ih =>
    by_cases he : e.chunk_id = c.chunk_id
    · simp [upsert, he, lookupChunk]
    · simpa [upsert, lookupChunk, List.find?, he] using ih

/-- C6: ingestion is idempotent with respect to the Vector Store: running
the same chunk list through `ingest` twice leaves the same entry count as
running it once, because `upsert` of a chunk id already present replaces
that entry (same count, and a lookup afterwards returns the new chunk)
rather than appending. -/
theorem ingest_idempotent_count (chunks store : List StoredChunk) (c : StoredChunk)
    (s : List StoredChunk) :
    (ingest chunks (ingest chunks store)).length = (ingest chunks store).length ∧
    lookupChunk c.chunk_id (upsert c s) = some c ∧
    (hasChunkId c.chunk_id s = true → (upsert c s).length = s.length) :=
  ⟨ingest_length_of_present chunks (ingest chunks store)
      (fun d hd => hasChunkId_ingest chunks store d hd),
   lookupChunk_upsert c s,
   fun h => upsert_length_of_hasChunkId c s h⟩

/-- Witness for C6: re-upserting chunk id 1 into a store already holding
it keeps the store at two entries. -/
theorem ingest_idempotent_count_witness :
    hasChunkId 1 [⟨1, [3], [1], "old"⟩, ⟨2, [4], [2], "b"⟩] = true ∧
    (upsert ⟨1, [9], [1], "new"⟩ [⟨1, [3], [1], "old"⟩, ⟨2, [4], [2], "b"⟩]).length =
      ([⟨1, [3], [1], "old"⟩, ⟨2, [4], [2], "b"⟩] : List StoredChunk).length :=
  ⟨by decide,
   (ingest_idempotent_count [] [] ⟨1, [9], [1], "new"⟩
      [⟨1, [3], [1], "old"⟩, ⟨2, [4], [2], "b"⟩]).2.2 (by decide)⟩

theorem chunksFuel_head (size step fuel : Nat) (text : List Char)
    (ht : text ≠ []) (hs : step ≠ 0) (hf : text.length ≤ fuel) :
    ∃ cs, chunksFuel size step fuel text = text.take size :: cs := by
  cases text with
  | nil => exact absurd rfl ht
  | cons a as =>
    cases fuel with
    | zero => simp at hf
    | succ fuel =>
      by_cases hle : (a :: as).length ≤ size
      · refine ⟨[], ?_⟩
        simp only [chunksFuel, if_pos (Or.inl hle)]
        rw [List.take_of_length_le hle]
      · refine ⟨chunksFuel size step fuel ((a :: as).drop step), ?_⟩
        simp only [chunksFuel]
        rw [if_neg]
        push_neg
        exact ⟨by omega, hs⟩

theorem dropOverlapConcat_chunksFuel (size overlap fuel : Nat) (h : overlap < size)
    (text : List Char) (hf : text.length ≤ fuel) :
    dropOverlapConcat overlap (chunksFuel size (size - overlap) fuel text) = text := by
  induction fuel generalizing text with
  | zero =>
    have : text = [] := List.length_eq_zero.mp (Nat.le_zero.mp hf)
    subst this
    rfl
  | succ fuel ih =>
    cases text with
    | nil => rfl
    | cons a as =>
      set t : List Char := a :: as with ht
      by_cases hle : t.length ≤ size
      · simp only [chunksFuel, if_pos (Or.inl hle)]
        simp [dropOverlapConcat]
      · have hstep : size - overlap ≠ 0 := by omega
        have hcond : ¬(t.length ≤ size ∨ size - overlap = 0) := by
          push_neg
          exact ⟨Nat.lt_of_not_le hle, hstep⟩
        simp only [chunksFuel, if_neg hcond]
        -- the tail text
        have hlen : t.length > size := Nat.lt_of_not_le hle
        have hlen' : (t.drop (size - overlap)).length ≤ fuel := by
          rw [List.length_drop]
          omega
        have htail_ne : t.drop (size - overlap) ≠ [] := by
          intro hnil
          have := congrArg List.length hnil
          rw [List.length_drop] at this
          simp at this
          omega
        obtain ⟨cs, hcs⟩ := chunksFuel_head size (size - overlap) fuel
          (t.drop (size - overlap)) htail_ne hstep hlen'
        have hIH := ih (t.drop (size - overlap)) hlen'
        rw [hcs] at hIH ⊢
        -- hIH : dropOverlapConcat overlap ((t.drop (size-overlap)).take size :: cs) = t.drop (size-overlap)
        simp only [dropOverlapConcat, List.map_cons, List.flatten_cons] at hIH ⊢
        -- take the IH equation, drop `overlap` from both sides
        have hAlen : overlap ≤ ((t.drop (size - overlap)).take size).length := by
          rw [List.length_take, List.length_drop]
          omega
        have hdropIH := congrArg (List.drop overlap) hIH
        rw [List.drop_append_of_le_length hAlen] at hdropIH
        rw [hdropIH, List.drop_drop]
        have hso : size - overlap + overlap = size := by omega
        rw [hso, List.take_append_drop]

theorem chunksFuel_invariant (size overlap fuel : Nat) (h : overlap < size)
    (text : List Char) (hf : text.length ≤ fuel) :
    (∀ c ∈ chunksFuel size (size - overlap) fuel text, c.length ≤ size) ∧
    List.Chain' (adjacentOverlap size overlap) (chunksFuel size (size - overlap) fuel text) := by
  induction fuel generalizing text with
  | zero =>
    have htnil : text = [] := List.length_eq_zero.mp (Nat.le_zero.mp hf)
    subst htnil
    simp [chunksFuel]
  | succ fuel ih =>
    cases text with
    | nil => simp [chunksFuel]
    | cons a as =>
      by_cases hle : (a :: as).length ≤ size
      · simp only [chunksFuel, if_pos (Or.inl hle)]
        refine ⟨?_, List.chain'_singleton (a :: as)⟩
        intro c hc
        rw [List.mem_singleton] at hc
        subst hc
        exact hle
      · have hstep : size - overlap ≠ 0 := by omega
        have hcond : ¬((a :: as).length ≤ size ∨ size - overlap = 0) := by
          push_neg
          exact ⟨Nat.lt_of_not_le hle, hstep⟩
        simp only [chunksFuel, if_neg hcond]
        have hlen : (a :: as).length > size := Nat.lt_of_not_le hle
        have hlen2 : ((a :: as).drop (size - overlap)).length ≤ fuel := by
          rw [List.length_drop]
          omega
        have htail_ne : (a :: as).drop (size - overlap) ≠ [] := by
          intro hnil
          have hln := congrArg List.length hnil
          rw [List.length_drop] at hln
          simp only [List.length_nil] at hln
          omega
        obtain ⟨cs, hcs⟩ := chunksFuel_head size (size - overlap) fuel
          ((a :: as).drop (size - overlap)) htail_ne hstep hlen2
        obtain ⟨ihlen, ihchain⟩ := ih ((a :: as).drop (size - overlap)) hlen2
        constructor
        · intro c hc
          rw [List.mem_cons] at hc
          rcases hc with rfl | hc
          · exact List.length_take_le size (a :: as)
          · exact ihlen c hc
        · rw [hcs] at ihchain ⊢
          refine List.chain'_cons.mpr ⟨?_, ihchain⟩
          refine ⟨?_, ?_, ?_⟩
          · rw [List.length_take]
            omega
          · rw [List.length_take, List.length_drop]
            omega
          · rw [List.drop_take, List.take_take]
            have h1 : size - (size - overlap) = overlap := by omega
            have h2 : overlap ⊓ size = overlap := by omega
            rw [h1, h2]

/-- C4: concatenating the ordered chunks the Chunker produces from a
text, with the configured overlap removed from each chunk after the
first, yields exactly the original text, for every configuration with
`overlap < size` (round-trip identity). -/
theorem chunker_round_trip (size overlap : Nat) (h : overlap < size) (text : List Char) :
    dropOverlapConcat overlap (slidingChunks size overlap text) = text :=
  dropOverlapConcat_chunksFuel size overlap text.length h text (Nat.le_refl _)

/-- Witness for C4 with `size = 5`, `overlap = 2` on a concrete text,
whose chunks are listed explicitly. -/
theorem chunker_round_trip_witness :
    2 < 5 ∧
    slidingChunks 5 2 "abcdefgh".toList = ["abcde".toList, "defgh".toList] ∧
    dropOverlapConcat 2 (slidingChunks 5 2 "abcdefgh".toList) = "abcdefgh".toList :=
  ⟨by decide, by decide, chunker_round_trip 5 2 (by decide) "abcdefgh".toList⟩

/-- C5: every produced chunk has length at most `size`, and adjacent
chunks (which come from the same block, hence carry the same vertical
set) share exactly `overlap` characters — chunk n+1 begins `overlap`
characters before the nominal end of chunk n — under the precondition
`overlap < size`. -/
theorem chunk_size_overlap_invariant (size overlap : Nat) (h : overlap < size)
    (text : List Char) :
    (∀ c ∈ slidingChunks size overlap text, c.length ≤ size) ∧
    List.Chain' (adjacentOverlap size overlap) (slidingChunks size overlap text) :=
  chunksFuel_invariant size overlap text.length h text (Nat.le_refl _)

/-- Witness for C5: with `size = 5`, `overlap = 2`, the concrete chunking
of a ten-character text satisfies the adjacency relation pairwise. -/
theorem chunk_size_overlap_invariant_witness :
    2 < 5 ∧
    List.Chain' (adjacentOverlap 5 2) (slidingChunks 5 2 "abcdefghij".toList) :=
  ⟨by decide, (chunk_size_overlap_invariant 5 2 (by decide) "abcdefghij".toList).2⟩

/-- C1: for every store content, query, allowed-vertical set, `top_k` and
threshold — including stores where more than `top_k` chunks in other
verticals would pass the threshold — `search` returns at most `top_k`
chunk ids, every returned id belongs to a stored chunk whose similarity
reaches the threshold, and no returned chunk has a vertical set disjoint
from the allowed verticals. -/
theorem search_enforces_scope (sim : List Int → List Int → ℚ) (store : List StoredChunk)
    (q : List Int) (allowed : List Nat) (top_k : Nat) (min_sim : ℚ) :
    (search sim store q allowed top_k min_sim).length ≤ top_k ∧
    ∀ cid ∈ search sim store q allowed top_k min_sim,
      ∃ c ∈ store, c.chunk_id = cid ∧ min_sim ≤ sim q c.vector ∧
        verticalsIntersect c.vertical_set allowed = true := by
  constructor
  · rw [search, List.length_map]
    exact List.length_take_le top_k _
  · intro cid hcid
    rw [search, List.mem_map] at hcid
    obtain ⟨c, hc_take, hc_id⟩ := hcid
    have hc_ranked := List.mem_of_mem_take hc_take
    have hc_cand : c ∈ store.filter
        (fun c => verticalsIntersect c.vertical_set allowed &&
          decide (min_sim ≤ sim q c.vector)) :=
      (List.perm_insertionSort _ _).mem_iff.mp hc_ranked
    rw [List.mem_filter] at hc_cand
    obtain ⟨hc_store, hc_pred⟩ := hc_cand
    rw [Bool.and_eq_true_iff] at hc_pred
    exact ⟨c, hc_store, hc_id, of_decide_eq_true hc_pred.2, hc_pred.1⟩

/-- Witness for C1: against `demoStore`, where two vertical-2 chunks pass
the threshold, a search allowed only vertical 1 returns exactly chunk 1,
and the theorem recovers its stored provenance. -/
theorem search_enforces_scope_witness :
    search exactMatchSim demoStore [5] [1] 2 1 = [1] ∧
    (1 ∈ search exactMatchSim demoStore [5] [1] 2 1) ∧
    (∃ c ∈ demoStore, c.chunk_id = 1 ∧ (1 : ℚ) ≤ exactMatchSim [5] c.vector ∧
      verticalsIntersect c.vertical_set [1] = true) :=
  ⟨by decide, by decide,
   (search_enforces_scope exactMatchSim demoStore [5] [1] 2 1).2 1 (by decide)⟩

/-- C10: for every non-negative amount, `formatCurrency` returns the
amount divided by 1e12 rounded to one decimal with suffix T when
`amount ≥ 1e12`; divided by 1e9 with suffix B when `1e9 ≤ amount < 1e12`;
divided by 1e6 with suffix M when `1e6 ≤ amount < 1e9`; the
locale-formatted amount with no suffix when `amount < 1e6`; and in every
case the result is prefixed with a dollar sign.  JavaScript numbers are
idealised as exact rationals. -/
theorem formatCurrency_cases (loc : ℚ → String) (amount : ℚ) (h : 0 ≤ amount) :
    (1000000000000 ≤ amount →
      formatCurrency loc amount = "$" ++ toFixed1 (amount / 1000000000000) ++ "T") ∧
    (1000000000 ≤ amount ∧ amount < 1000000000000 →
      formatCurrency loc amount = "$" ++ toFixed1 (amount / 1000000000) ++ "B") ∧
    (1000000 ≤ amount ∧ amount < 1000000000 →
      formatCurrency loc amount = "$" ++ toFixed1 (amount / 1000000) ++ "M") ∧
    (amount < 1000000 → formatCurrency loc amount = "$" ++ loc amount) ∧
    ∃ rest : String, formatCurrency loc amount = "$" ++ rest := by
  refine ⟨?_, ?_, ?_, ?_, ?_⟩
  · intro h1
    rw [formatCurrency, if_pos (ge_iff_le.mpr h1)]
  · rintro ⟨h1, h2⟩
    rw [formatCurrency, if_neg (by simpa [ge_iff_le] using not_le.mpr h2),
      if_pos (ge_iff_le.mpr h1)]
  · rintro ⟨h1, h2⟩
    have h3 : amount < 1000000000000 := h2.trans (by norm_num)
    rw [formatCurrency, if_neg (by simpa [ge_iff_le] using not_le.mpr h3),
      if_neg (by simpa [ge_iff_le] using not_le.mpr h2), if_pos (ge_iff_le.mpr h1)]
  · intro h1
    have h2 : amount < 1000000000 := h1.trans (by norm_num)
    have h3 : amount < 1000000000000 := h1.trans (by norm_num)
    rw [formatCurrency, if_neg (by simpa [ge_iff_le] using not_le.mpr h3),
      if_neg (by simpa [ge_iff_le] using not_le.mpr h2),
      if_neg (by simpa [ge_iff_le] using not_le.mpr h1)]
  · rw [formatCurrency]
    by_cases h1 : amount ≥ 1000000000000
    · rw [if_pos h1]
      exact ⟨toFixed1 (amount / 1000000000000) ++ "T", (String.append_assoc _ _ _)⟩
    · rw [if_neg h1]
      by_cases h2 : amount ≥ 1000000000
      · rw [if_pos h2]
        exact ⟨toFixed1 (amount / 1000000000) ++ "B", (String.append_assoc _ _ _)⟩
      · rw [if_neg h2]
        by_cases h3 : amount ≥ 1000000
        · rw [if_pos h3]
          exact ⟨toFixed1 (amount / 1000000) ++ "M", (String.append_assoc _ _ _)⟩
        · rw [if_neg h3]
          exact ⟨loc amount, rfl⟩

/-- Witness for C10 at the concrete amount 500000, which falls in the
locale-formatted branch. -/
theorem formatCurrency_cases_witness :
    0 ≤ (500000 : ℚ) ∧ (500000 : ℚ) < 1000000 ∧
    formatCurrency (fun _ => "500,000") 500000 = "$" ++ "500,000" :=
  ⟨by decide, by decide,
   (formatCurrency_cases (fun _ => "500,000") 500000 (by decide)).2.2.2.1 (by decide)⟩
